import Mathlib

/-!
Verification development for the deflicker repository's core:
the temporal mask-stabilization filters (`src/stabilization.py`) and the
stability metrics (`src/metrics.py`).

Modelling conventions:
* numpy float arrays are modelled exactly over `ℚ`; `.astype(np.float32)`
  casts are the identity (no rounding is modelled);
* a 2-D array (one mask frame) is a `List (List ℚ)` of rows;
* Python exceptions are modelled by `Except PyError`; `ValueError` (raised by
  the parameter checks, and by `np.min`/`np.max` on an empty sequence) maps to
  `PyError.valueError`, an out-of-range list index (Python `IndexError`) maps
  to `PyError.indexError`;
* `np.exp` is transcendental, so the bilateral filter is parameterised by an
  abstract function `rexp : ℚ → ℚ` standing for the pointwise exponential;
  every property proved below holds for all `rexp`.
-/

/-- Python exception outcomes relevant to the modelled code. -/
inductive PyError where
  | valueError
  | indexError
  deriving DecidableEq, Repr

/-- One mask frame: a 2-D grid of rationals (rows of pixels). -/
abbrev Frame : Type := List (List ℚ)

/-- Pixel access `f[r][c]`; the default 0 is never hit on in-range indices. -/
def fetch (f : Frame) (r c : ℕ) : ℚ := (f.getD r []).getD c 0

/-- Arithmetic mean of a list of rationals (`np.mean` of a 1-D collection). -/
def meanQ (xs : List ℚ) : ℚ := xs.sum / (xs.length : ℚ)

/-- Median of a list of rationals, as `np.median` computes it: sort, take the
middle element for odd length, the average of the two middle elements for even
length. -/
def medianQ (xs : List ℚ) : ℚ :=
  let s := List.insertionSort (· ≤ ·) xs
  let n := xs.length
  if n % 2 = 1 then s.getD (n / 2) 0
  else (s.getD (n / 2 - 1) 0 + s.getD (n / 2) 0) / 2

/-- Population variance (`np.std` squared; `np.std` itself is the square root,
an irrational that no modelled result depends on). -/
def varQ (xs : List ℚ) : ℚ := meanQ (xs.map fun x => (x - meanQ xs) ^ 2)

/-- Minimum of a nonempty list (`np.min`; callers guard emptiness). -/
def listMin : List ℚ → ℚ
  | [] => 0
  | x :: xs => xs.foldl min x

/-- Maximum of a nonempty list (`np.max`; callers guard emptiness). -/
def listMax : List ℚ → ℚ
  | [] => 0
  | x :: xs => xs.foldl max x

/-- Pixelwise aggregation of a stack of equal-shaped frames with a 1-D
reducer `g` — this is `np.mean(stack, axis=0)` / `np.median(stack, axis=0)`
with `g := meanQ` / `medianQ`.  The output grid takes the shape of the first
frame (all frames in a window share one shape by the sequence invariant). -/
def pixAgg (g : List ℚ → ℚ) (fs : List Frame) : Frame :=
  match fs with
  | [] => []
  | f0 :: _ =>
      (List.range f0.length).map fun r =>
        (List.range (f0.getD r []).length).map fun c =>
          g (fs.map fun f => fetch f r c)

/-- The clipped temporal window `masks[start:end]` with
`start = max(0, i - h)` (`ℕ` subtraction is exactly that) and
`end = min(num_frames, i + h + 1)`, as in `moving_average` /
`median_filter` / `bilateral_temporal_filter`. -/
def winSlice (masks : List Frame) (h i : ℕ) : List Frame :=
  (masks.drop (i - h)).take (min masks.length (i + h + 1) - (i - h))

/-- `MaskStabilizer.moving_average`: reject even `window_size`, else output
frame `i` is the pixelwise mean over the clipped window. -/
def moving_average (masks : List Frame) (window_size : ℕ) :
    Except PyError (List Frame) :=
  if window_size % 2 = 0 then .error .valueError
  else .ok ((List.range masks.length).map fun i =>
    pixAgg meanQ (winSlice masks (window_size / 2) i))

/-- `MaskStabilizer.median_filter`: identical windowing, pixelwise median. -/
def median_filter (masks : List Frame) (window_size : ℕ) :
    Except PyError (List Frame) :=
  if window_size % 2 = 0 then .error .valueError
  else .ok ((List.range masks.length).map fun i =>
    pixAgg medianQ (winSlice masks (window_size / 2) i))

/-- One update `alpha * masks[i] + (1 - alpha) * smoothed`, elementwise. -/
def esStep (a : ℚ) (m prev : Frame) : Frame :=
  List.zipWith (List.zipWith fun x p => a * x + (1 - a) * p) m prev

/-- The tail of the exponential-smoothing loop: given the previous smoothed
frame, emit the smoothed versions of the remaining frames. -/
def esGo (a : ℚ) (prev : Frame) : List Frame → List Frame
  | [] => []
  | m :: ms => esStep a m prev :: esGo a (esStep a m prev) ms

/-- `MaskStabilizer.exponential_smoothing`: reject `alpha` outside the open
interval `(0,1)`; then `smoothed = masks[0].copy()` (an `IndexError` on an
empty sequence), followed by the causal recurrence. -/
def exponential_smoothing (masks : List Frame) (a : ℚ) :
    Except PyError (List Frame) :=
  if ¬(0 < a ∧ a < 1) then .error .valueError
  else
    match masks with
    | [] => .error .indexError
    | m :: ms => .ok (m :: esGo a m ms)

/-! ### Metrics (`src/metrics.py`) -/

/-- A numpy mask as the metrics see it: the dtype decides the binarization
threshold (`> 0.5` for float dtypes, `> 0` otherwise). -/
structure NpMask where
  isFloat : Bool
  data : List (List ℚ)
  deriving DecidableEq

instance : Inhabited NpMask := ⟨⟨true, []⟩⟩

/-- Binarize one pixel according to the mask's dtype. -/
def binPix (isF : Bool) (x : ℚ) : Bool := if isF then 1/2 < x else 0 < x

/-- Binarized grid of a mask (`(mask > 0.5).astype(np.uint8)` or
`(mask > 0).astype(np.uint8)`). -/
def binMask (m : NpMask) : List (List Bool) :=
  m.data.map fun row => row.map (binPix m.isFloat)

/-- Elementwise logical and of two boolean grids (`np.logical_and`). -/
def andG (g1 g2 : List (List Bool)) : List (List Bool) :=
  List.zipWith (List.zipWith and) g1 g2

/-- Elementwise logical or of two boolean grids (`np.logical_or`). -/
def orG (g1 g2 : List (List Bool)) : List (List Bool) :=
  List.zipWith (List.zipWith or) g1 g2

/-- Number of `true` cells of a boolean grid (`.sum()` of a 0/1 array). -/
def countT (g : List (List Bool)) : ℕ := (g.map (List.count true)).sum

/-- Cardinality of the binarized intersection. -/
def interCount (m1 m2 : NpMask) : ℕ := countT (andG (binMask m1) (binMask m2))

/-- Cardinality of the binarized union. -/
def unionCount (m1 m2 : NpMask) : ℕ := countT (orG (binMask m1) (binMask m2))

/-- Foreground cardinality of one binarized mask (`mask_bin.sum()`). -/
def sumCount (m : NpMask) : ℕ := countT (binMask m)

/-- `calculate_iou`: intersection over union of the binarized masks, with the
degenerate convention for an empty union. -/
def calculate_iou (m1 m2 : NpMask) : ℚ :=
  let i := interCount m1 m2
  let u := unionCount m1 m2
  if u = 0 then (if i = 0 then 1 else 0)
  else (i : ℚ) / (u : ℚ)

/-- `calculate_dice`: `2·|A∩B| / (|A|+|B|)` on the binarized masks, with the
same degenerate convention for a zero denominator. -/
def calculate_dice (m1 m2 : NpMask) : ℚ :=
  let i := interCount m1 m2
  let t := sumCount m1 + sumCount m2
  if t = 0 then (if i = 0 then 1 else 0)
  else (2 * i : ℚ) / (t : ℚ)

/-- `calculate_instability`: `1 - iou` over consecutive pairs. -/
def calculate_instability (masks : List NpMask) : List ℚ :=
  (List.range (masks.length - 1)).map fun i =>
    1 - calculate_iou (masks.getD i default) (masks.getD (i + 1) default)

/-- `calculate_temporal_consistency`: `iou` over consecutive pairs. -/
def calculate_temporal_consistency (masks : List NpMask) : List ℚ :=
  (List.range (masks.length - 1)).map fun i =>
    calculate_iou (masks.getD i default) (masks.getD (i + 1) default)

/-- The `{mean, median, std, min, max, scores}` block of `compare_stability`
(std is stored as its square, see `varQ`). -/
structure StatBlock where
  mean : ℚ
  median : ℚ
  var : ℚ
  minv : ℚ
  maxv : ℚ
  scores : List ℚ
  deriving DecidableEq

/-- Build one statistics block.  On an empty score list `np.min` raises
`ValueError` (while `np.mean`/`np.median`/`np.std` merely warn and return NaN,
the dict construction never completes), so the whole call fails. -/
def statsOf (xs : List ℚ) : Except PyError StatBlock :=
  if xs.isEmpty then .error .valueError
  else .ok ⟨meanQ xs, medianQ xs, varQ xs, listMin xs, listMax xs, xs⟩

/-- Result of `compare_stability`. -/
structure StabilityReport where
  instBefore : StatBlock
  instAfter : StatBlock
  iouBefore : StatBlock
  iouAfter : StatBlock
  instability_reduction : ℚ
  instability_reduction_percent : ℚ
  iou_improvement : ℚ
  iou_improvement_percent : ℚ
  deriving DecidableEq

/-- `compare_stability`: the per-sequence series, their statistics blocks, and
the improvement block.  Note the source performs no validation relating
`masks_before` to `masks_after`. -/
def compare_stability (masks_before masks_after : List NpMask) :
    Except PyError StabilityReport := do
  let ib := calculate_instability masks_before
  let ia := calculate_instability masks_after
  let cb := calculate_temporal_consistency masks_before
  let ca := calculate_temporal_consistency masks_after
  let sib ← statsOf ib
  let sia ← statsOf ia
  let scb ← statsOf cb
  let sca ← statsOf ca
  .ok ⟨sib, sia, scb, sca,
    meanQ ib - meanQ ia,
    100 * (meanQ ib - meanQ ia) / (meanQ ib + 1 / 100000000),
    meanQ ca - meanQ cb,
    100 * (meanQ ca - meanQ cb) / (meanQ cb + 1 / 100000000)⟩

/-! ### A faithful n-dimensional array model for `bilateral_temporal_filter`

The bilateral filter mixes arrays of different ranks
(`weights[:, None, None]` against the stacked window), so its semantics is
modelled on row-major n-D arrays with numpy's broadcasting rule. -/

/-- A numpy n-D array: a shape and the row-major flat data. -/
structure NDArr where
  shape : List ℕ
  data : List ℚ
  deriving DecidableEq

instance : Inhabited NDArr := ⟨⟨[], []⟩⟩

/-- Broadcast one dimension pair (numpy: equal, or one of them 1). -/
def bcastDim (a b : ℕ) : Option ℕ :=
  if a = b then some a else if a = 1 then some b else if b = 1 then some a
  else none

/-- Broadcast two reversed shapes (so that alignment is at the head). -/
def bcastRev : List ℕ → List ℕ → Option (List ℕ)
  | [], t => some t
  | a :: s, [] => some (a :: s)
  | a :: s, b :: t => do
      let d ← bcastDim a b
      let r ← bcastRev s t
      some (d :: r)

/-- Numpy's broadcast of two shapes: right-align, pad the shorter with 1s. -/
def bcastShape (s1 s2 : List ℕ) : Option (List ℕ) :=
  (bcastRev s1.reverse s2.reverse).map List.reverse

/-- All multi-indices of a shape, in row-major order. -/
def allIdx : List ℕ → List (List ℕ)
  | [] => [[]]
  | d :: rest => (List.range d).flatMap fun i => (allIdx rest).map (i :: ·)

/-- Row-major flat offset of a multi-index in a shape. -/
def flatIdx : List ℕ → List ℕ → ℕ
  | [], _ => 0
  | _, [] => 0
  | _ :: s, i :: is => i * s.prod + flatIdx s is

/-- Broadcast-aware element lookup: drop the leading axes the array lacks and
pin every size-1 axis to index 0. -/
def getB (a : NDArr) (idx : List ℕ) : ℚ :=
  let idx1 := idx.drop (idx.length - a.shape.length)
  let idx2 := List.zipWith (fun d i => if d = 1 then 0 else i) a.shape idx1
  a.data.getD (flatIdx a.shape idx2) 0

/-- Elementwise binary operation with broadcasting; incompatible shapes raise
`ValueError` as in numpy. -/
def binop (f : ℚ → ℚ → ℚ) (a b : NDArr) : Except PyError NDArr :=
  match bcastShape a.shape b.shape with
  | none => .error .valueError
  | some s => .ok ⟨s, (allIdx s).map fun i => f (getB a i) (getB b i)⟩

/-- `np.sum(a, axis=0)`, with or without `keepdims`. -/
def sumAxis0 (keepdims : Bool) (a : NDArr) : NDArr :=
  match a.shape with
  | [] => a
  | d :: rest =>
      ⟨(if keepdims then 1 :: rest else rest),
       (allIdx rest).map fun i => ((List.range d).map fun j => getB a (j :: i)).sum⟩

/-- `a[0]`: first slice along axis 0. -/
def index0 (a : NDArr) : NDArr := ⟨a.shape.tail, a.data.take a.shape.tail.prod⟩

/-- Elementwise unary map (dtype-preserving numpy ufunc on one array, and
multiplication or comparison against a python scalar). -/
def mapA (f : ℚ → ℚ) (a : NDArr) : NDArr := ⟨a.shape, a.data.map f⟩

/-- `np.array` on a list of equal-shaped arrays: stack along a new axis 0. -/
def stackA (frames : List NDArr) : NDArr :=
  ⟨frames.length :: (frames.headD default).shape, (frames.map (·.data)).flatten⟩

/-- `a[:, None, None]`: keep axis 0, then insert two size-1 axes.  Row-major
data is unchanged. -/
def insert2Axes (a : NDArr) : NDArr :=
  ⟨a.shape.take 1 ++ 1 :: 1 :: a.shape.drop 1, a.data⟩

/-- One `j` iteration of the bilateral loop body: the per-pixel weight
`exp(-(j-i)^2/(2*sigma_t^2)) * exp(-|masks[j]-current|^2/(2*sigma_i^2))`
paired with `masks[j]`. -/
def bilateralWeight (rexp : ℚ → ℚ) (masks : List NDArr) (st si : ℚ) (i j : ℕ) :
    Except PyError (NDArr × NDArr) := do
  let mj := masks.getD j default
  let current := masks.getD i default
  let tw := rexp (-((j : ℚ) - (i : ℚ)) ^ 2 / (2 * st ^ 2))
  let dif ← binop (fun x y => x - y) mj current
  let iw := mapA (fun d => rexp (-|d| ^ 2 / (2 * si ^ 2))) dif
  .ok (mapA (fun x => tw * x) iw, mj)

/-- The frame computed at output index `i` by `bilateral_temporal_filter`:
stack the weights and window masks, normalize by the clamped weight sum, and
take the broadcast quotient
`np.sum(weights[:, None, None] * np.array(window_masks), axis=0) / weights_sum[0]`. -/
def bilateralFrame (rexp : ℚ → ℚ) (masks : List NDArr) (h : ℕ) (st si : ℚ)
    (i : ℕ) : Except PyError NDArr := do
  let stop := min masks.length (i + h + 1)
  let js := List.range' (i - h) (stop - (i - h))
  let pairs ← js.mapM (bilateralWeight rexp masks st si i)
  let weights := stackA (pairs.map (·.1))
  let window_masks := stackA (pairs.map (·.2))
  let wsum := mapA (fun x => max x (1 / 100000000)) (sumAxis0 true weights)
  let prod ← binop (· * ·) (insert2Axes weights) window_masks
  binop (· / ·) (sumAxis0 false prod) (index0 wsum)

/-- `MaskStabilizer.bilateral_temporal_filter`, parameterised by the abstract
exponential `rexp` (see the file header). -/
def bilateral_temporal_filter (rexp : ℚ → ℚ) (masks : List NDArr)
    (window_size : ℕ) (sigma_temporal sigma_intensity : ℚ) :
    Except PyError (List NDArr) :=
  if window_size % 2 = 0 then .error .valueError
  else (List.range masks.length).mapM
    (bilateralFrame rexp masks (window_size / 2) sigma_temporal sigma_intensity)

/-! ### Shared predicates and concrete inputs -/

/-- Every pixel of every frame of the sequence lies in `[0, 1]`. -/
def Bounded01 (fs : List Frame) : Prop :=
  ∀ f ∈ fs, ∀ row ∈ f, ∀ x ∈ row, 0 ≤ x ∧ x ≤ 1

/-- Five 2×2 frames of constant value one half. -/
def fiveHalfFrames : List NDArr :=
  List.replicate 5 ⟨[2, 2], [1/2, 1/2, 1/2, 1/2]⟩

/-! ### Claims -/

/-- C1: the claim says all four stabilization operations return frames of the
input's height and width.  The source's `bilateral_temporal_filter` violates
it: `weights[:, None, None]` has shape `(k,1,1,H,W)` and broadcasting against
the `(k,H,W)` window stack yields `(k,1,k,H,W)`, so after the axis-0 sum and
the division each output frame has numpy shape `(1,k,H,W)` instead of
`(H,W)`.  Evaluated here on five 2×2 half-valued frames with
`window_size = 3`, `sigma_temporal = 1`, `sigma_intensity = 1/10`, for every
exponential function `rexp`: the input frames are all `2×2`, yet the output
frames are 4-dimensional. -/
theorem C1_bilateral_shape_bug (rexp : ℚ → ℚ) :
    fiveHalfFrames.map NDArr.shape = [[2,2], [2,2], [2,2], [2,2], [2,2]] ∧
    (bilateral_temporal_filter rexp fiveHalfFrames 3 1 (1/10)).map
        (fun l => l.map NDArr.shape)
      = .ok [[1,2,2,2], [1,3,2,2], [1,3,2,2], [1,3,2,2], [1,2,2,2]] :=
  ⟨rfl, rfl⟩

/-- C2 counterexample: on the empty sequence with valid parameters none of the
operations raises the claimed `InvalidInput`-style error: the three windowed
filters return the empty sequence, and `exponential_smoothing` (default
`alpha = 0.3`) fails with an `IndexError` from `masks[0]`, not a validation
error. -/
theorem C2_counterexample :
    moving_average ([] : List Frame) 3 = .ok [] ∧
    median_filter ([] : List Frame) 3 = .ok [] ∧
    bilateral_temporal_filter id ([] : List NDArr) 3 1 (1/10) = .ok [] ∧
    exponential_smoothing ([] : List Frame) (3/10) = .error .indexError := by
  refine ⟨rfl, rfl, rfl, ?_⟩
  have h1 : (0 : ℚ) < 3/10 := by norm_num
  have h2 : (3 : ℚ)/10 < 1 := by norm_num
  simp [exponential_smoothing, h1, h2]

/-- C2 amended: for any valid parameters (odd window, `alpha ∈ (0,1)`, any
exponential and sigmas), the empty input sequence makes `moving_average`,
`median_filter` and `bilateral_temporal_filter` return the empty sequence
without error, while `exponential_smoothing` fails with an index error (from
accessing the first frame), not a dedicated invalid-input error. -/
theorem C2_empty_sequence_behavior (w : ℕ) (a : ℚ) (rexp : ℚ → ℚ) (st si : ℚ)
    (hw : w % 2 = 1) (ha0 : 0 < a) (ha1 : a < 1) :
    moving_average [] w = .ok [] ∧
    median_filter [] w = .ok [] ∧
    bilateral_temporal_filter rexp [] w st si = .ok [] ∧
    exponential_smoothing [] a = .error .indexError := by
  have h2 : ¬(w % 2 = 0) := by omega
  refine ⟨?_, ?_, ?_, ?_⟩
  · simp [moving_average, h2]
  · simp [median_filter, h2]
  · simp [bilateral_temporal_filter, h2]; rfl
  · simp [exponential_smoothing, ha0, ha1]

/-- C2 witness: the amended statement at `w = 3`, `alpha = 1/2`. -/
theorem C2_empty_sequence_behavior_witness :
    moving_average [] 3 = .ok [] ∧
    median_filter [] 3 = .ok [] ∧
    bilateral_temporal_filter id [] 3 1 (1/10) = .ok [] ∧
    exponential_smoothing [] (1/2) = .error .indexError :=
  C2_empty_sequence_behavior 3 (1/2) id 1 (1/10) (by decide) (by norm_num)
    (by norm_num)

/-- C4 counterexample: `exponential_smoothing` with `alpha = 1` does not
return the input unchanged — the parameter check `0 < alpha < 1` rejects it
with a `ValueError` before any computation. -/
theorem C4_counterexample :
    exponential_smoothing [[[1]]] 1 = .error .valueError ∧
    exponential_smoothing [[[1]]] 1 ≠ .ok [[[1]]] := by
  refine ⟨?_, ?_⟩ <;> simp [exponential_smoothing]

/-- C4 amended: `exponential_smoothing` called with `alpha = 1` fails with
`InvalidParameter` (a `ValueError` from the open-interval check) for every
input sequence; it never returns a result, unchanged or otherwise. -/
theorem C4_alpha_one_rejected (masks : List Frame) :
    exponential_smoothing masks 1 = .error .valueError := by
  simp [exponential_smoothing]

/-- C7: the degenerate conventions of `calculate_iou` and `calculate_dice`
for equal-shaped masks — with an empty binarized union, iou is 1 when the
intersection is also empty and 0 otherwise; with a zero denominator
`|A| + |B|`, dice is 1 when the intersection is empty and 0 otherwise.  Both
functions are total, so the degenerate cases are finite values, never
errors. -/
theorem C7_degenerate_conventions (A B : NpMask)
    (_hshape : A.data.map List.length = B.data.map List.length) :
    (unionCount A B = 0 →
      (interCount A B = 0 → calculate_iou A B = 1) ∧
      (interCount A B ≠ 0 → calculate_iou A B = 0)) ∧
    (sumCount A + sumCount B = 0 →
      (interCount A B = 0 → calculate_dice A B = 1) ∧
      (interCount A B ≠ 0 → calculate_dice A B = 0)) := by
  constructor
  · intro hu
    refine ⟨fun hi => ?_, fun hi => ?_⟩ <;> simp [calculate_iou, hu, hi]
  · intro ht
    refine ⟨fun hi => ?_, fun hi => ?_⟩ <;> simp [calculate_dice, ht, hi]

/-- C7 witness: two fully empty float 1×1 masks — equal shapes, empty union,
empty denominator — give iou = dice = 1. -/
theorem C7_degenerate_conventions_witness :
    (unionCount ⟨true, [[0]]⟩ ⟨true, [[0]]⟩ = 0 →
      (interCount ⟨true, [[0]]⟩ ⟨true, [[0]]⟩ = 0 →
        calculate_iou ⟨true, [[0]]⟩ ⟨true, [[0]]⟩ = 1) ∧
      (interCount ⟨true, [[0]]⟩ ⟨true, [[0]]⟩ ≠ 0 →
        calculate_iou ⟨true, [[0]]⟩ ⟨true, [[0]]⟩ = 0)) ∧
    (sumCount ⟨true, [[0]]⟩ + sumCount ⟨true, [[0]]⟩ = 0 →
      (interCount ⟨true, [[0]]⟩ ⟨true, [[0]]⟩ = 0 →
        calculate_dice ⟨true, [[0]]⟩ ⟨true, [[0]]⟩ = 1) ∧
      (interCount ⟨true, [[0]]⟩ ⟨true, [[0]]⟩ ≠ 0 →
        calculate_dice ⟨true, [[0]]⟩ ⟨true, [[0]]⟩ = 0)) :=
  C7_degenerate_conventions ⟨true, [[0]]⟩ ⟨true, [[0]]⟩ rfl

/-! ### Counting lemmas for the overlap metrics -/

lemma row_and_le_or (r1 r2 : List Bool) :
    (List.zipWith and r1 r2).count true ≤ (List.zipWith or r1 r2).count true := by
  induction r1 generalizing r2 with
  | nil => simp
  | cons x xs ih =>
    cases r2 with
    | nil => simp
    | cons y ys =>
      simp only [List.zipWith_cons_cons, List.count_cons]
      have := ih ys
      cases x <;> cases y <;> simp <;> omega

lemma grid_and_le_or (a b : List (List Bool)) :
    countT (andG a b) ≤ countT (orG a b) := by
  unfold countT andG orG
  induction a generalizing b with
  | nil => simp
  | cons r rs ih =>
    cases b with
    | nil => simp
    | cons s ss =>
      simp only [List.zipWith_cons_cons, List.map_cons, List.sum_cons]
      exact Nat.add_le_add (row_and_le_or r s) (ih ss)

lemma row_count_add (r1 r2 : List Bool) (h : r1.length = r2.length) :
    r1.count true + r2.count true
      = (List.zipWith and r1 r2).count true + (List.zipWith or r1 r2).count true := by
  induction r1 generalizing r2 with
  | nil =>
    have : r2 = [] := List.eq_nil_of_length_eq_zero h.symm
    simp [this]
  | cons x xs ih =>
    cases r2 with
    | nil => simp at h
    | cons y ys =>
      simp only [List.length_cons, Nat.succ.injEq] at h
      simp only [List.zipWith_cons_cons, List.count_cons]
      have := ih ys h
      cases x <;> cases y <;> simp <;> omega

lemma grid_count_add (a b : List (List Bool))
    (h : a.map List.length = b.map List.length) :
    countT a + countT b = countT (andG a b) + countT (orG a b) := by
  unfold countT andG orG
  induction a generalizing b with
  | nil =>
    have hb : List.map List.length b = [] := by simpa using h.symm
    have : b = [] := List.map_eq_nil_iff.mp hb
    simp [this]
  | cons r rs ih =>
    cases b with
    | nil => simp at h
    | cons s ss =>
      simp only [List.map_cons, List.cons.injEq] at h
      simp only [List.zipWith_cons_cons, List.map_cons, List.sum_cons]
      have := ih ss h.2
      have hrow := row_count_add r s h.1
      omega

lemma binMask_rowLens (m : NpMask) :
    (binMask m).map List.length = m.data.map List.length := by
  unfold binMask
  simp

/-- C8: for equal-shaped masks the Dice coefficient is always at least the
IoU, the degenerate both-empty case (both metrics 1) included.  The key facts
are `|A∩B| ≤ |A∪B|` and `|A| + |B| = |A∩B| + |A∪B|`. -/
theorem C8_dice_ge_iou (A B : NpMask)
    (hshape : A.data.map List.length = B.data.map List.length) :
    calculate_iou A B ≤ calculate_dice A B := by
  have hIU : interCount A B ≤ unionCount A B := grid_and_le_or _ _
  have hT : sumCount A + sumCount B = interCount A B + unionCount A B := by
    unfold sumCount interCount unionCount
    exact grid_count_add _ _ (by rw [binMask_rowLens, binMask_rowLens, hshape])
  unfold calculate_iou calculate_dice
  rw [hT]
  by_cases hU : unionCount A B = 0
  · have hI : interCount A B = 0 := by omega
    simp [hU, hI]
  · have hIU0 : ¬(interCount A B + unionCount A B = 0) := by omega
    simp only [hU, hIU0, if_false]
    have hUq : (0 : ℚ) < (unionCount A B : ℚ) := by
      exact_mod_cast Nat.pos_of_ne_zero hU
    have hTq : (0 : ℚ) < ((interCount A B : ℚ) + (unionCount A B : ℚ)) := by
      positivity
    have hIq : (0 : ℚ) ≤ (interCount A B : ℚ) := by positivity
    have hIUq : (interCount A B : ℚ) ≤ (unionCount A B : ℚ) := by
      exact_mod_cast hIU
    push_cast
    rw [div_le_div_iff₀ hUq hTq]
    nlinarith

/-- C8 witness: two 2×2 binary masks with a 2-pixel overlap — dice 2/3
is at least iou 1/2. -/
theorem C8_dice_ge_iou_witness :
    calculate_iou ⟨true, [[0, 1], [1, 1]]⟩ ⟨true, [[1, 1], [1, 0]]⟩
      ≤ calculate_dice ⟨true, [[0, 1], [1, 1]]⟩ ⟨true, [[1, 1], [1, 0]]⟩ :=
  C8_dice_ge_iou ⟨true, [[0, 1], [1, 1]]⟩ ⟨true, [[1, 1], [1, 0]]⟩ rfl

lemma andG_comm (a b : List (List Bool)) : andG a b = andG b a :=
  List.zipWith_comm_of_comm _
    (fun r s => List.zipWith_comm_of_comm _ (fun x y => Bool.and_comm x y) r s)
    a b

lemma orG_comm (a b : List (List Bool)) : orG a b = orG b a :=
  List.zipWith_comm_of_comm _
    (fun r s => List.zipWith_comm_of_comm _ (fun x y => Bool.or_comm x y) r s)
    a b

/-- C9: both overlap metrics are commutative in their two mask arguments —
intersection, union and the sum of foreground counts are all symmetric. -/
theorem C9_metrics_commutative (A B : NpMask)
    (_hshape : A.data.map List.length = B.data.map List.length) :
    calculate_iou A B = calculate_iou B A ∧
    calculate_dice A B = calculate_dice B A := by
  have hi : interCount A B = interCount B A := by
    unfold interCount; rw [andG_comm]
  have hu : unionCount A B = unionCount B A := by
    unfold unionCount; rw [orG_comm]
  constructor
  · unfold calculate_iou; rw [hi, hu]
  · unfold calculate_dice; rw [hi, Nat.add_comm]

/-- C9 witness: a float mask and an integer mask of equal 1×2 shape. -/
theorem C9_metrics_commutative_witness :
    calculate_iou ⟨false, [[1, 0]]⟩ ⟨true, [[1, 1]]⟩
        = calculate_iou ⟨true, [[1, 1]]⟩ ⟨false, [[1, 0]]⟩ ∧
    calculate_dice ⟨false, [[1, 0]]⟩ ⟨true, [[1, 1]]⟩
        = calculate_dice ⟨true, [[1, 1]]⟩ ⟨false, [[1, 0]]⟩ :=
  C9_metrics_commutative ⟨false, [[1, 0]]⟩ ⟨true, [[1, 1]]⟩ rfl

/-! ### Error behaviour of `compare_stability` -/

lemma statsOf_of_ne_nil (xs : List ℚ) (h : xs ≠ []) :
    statsOf xs = .ok ⟨meanQ xs, medianQ xs, varQ xs, listMin xs, listMax xs, xs⟩ := by
  unfold statsOf
  rw [if_neg (by simpa [List.isEmpty_iff] using h)]

lemma instability_ne_nil (l : List NpMask) (h : 2 ≤ l.length) :
    calculate_instability l ≠ [] := by
  simp only [calculate_instability, ne_eq, List.map_eq_nil_iff, List.range_eq_nil]
  omega

lemma consistency_ne_nil (l : List NpMask) (h : 2 ≤ l.length) :
    calculate_temporal_consistency l ≠ [] := by
  simp only [calculate_temporal_consistency, ne_eq, List.map_eq_nil_iff,
    List.range_eq_nil]
  omega

/-- C3 counterexample: `compare_stability` applied to a 2-frame sequence of
1×1 masks as `before` and a 3-frame sequence of 2×2 masks as `after` — the
lengths differ and the per-frame shapes differ, yet the call succeeds. -/
theorem C3_counterexample :
    ([⟨true, [[0]]⟩, ⟨true, [[1]]⟩] : List NpMask).length
      ≠ ([⟨true, [[1, 1], [1, 1]]⟩, ⟨true, [[1, 1], [1, 1]]⟩,
          ⟨true, [[1, 1], [1, 1]]⟩] : List NpMask).length ∧
    (compare_stability [⟨true, [[0]]⟩, ⟨true, [[1]]⟩]
        [⟨true, [[1, 1], [1, 1]]⟩, ⟨true, [[1, 1], [1, 1]]⟩,
         ⟨true, [[1, 1], [1, 1]]⟩]).isOk = true :=
  ⟨by decide, rfl⟩

/-- C3 amended: `compare_stability` performs no cross-sequence validation at
all — for any two sequences with at least two frames each (each internally of
uniform shape, as the data model requires), it succeeds even when their
lengths differ and their frame shapes do not match; no invalid-input error is
raised for the mismatch.  (It fails only when a sequence has fewer than two
frames, since `np.min` of the empty score list raises `ValueError`.) -/
theorem C3_no_cross_validation (bs as : List NpMask) (sB sA : List ℕ)
    (hB : 2 ≤ bs.length) (hA : 2 ≤ as.length)
    (_hBs : ∀ m ∈ bs, m.data.map List.length = sB)
    (_hAs : ∀ m ∈ as, m.data.map List.length = sA) :
    (compare_stability bs as).isOk = true := by
  have h1 := statsOf_of_ne_nil _ (instability_ne_nil bs hB)
  have h2 := statsOf_of_ne_nil _ (instability_ne_nil as hA)
  have h3 := statsOf_of_ne_nil _ (consistency_ne_nil bs hB)
  have h4 := statsOf_of_ne_nil _ (consistency_ne_nil as hA)
  unfold compare_stability
  simp only [bind, Except.bind, h1, h2, h3, h4]
  rfl

/-- C3 witness: mismatched sequences of lengths 2 and 4 with frame shapes 1×2
and 1×1 respectively; `compare_stability` succeeds. -/
theorem C3_no_cross_validation_witness :
    (compare_stability [⟨true, [[0, 1]]⟩, ⟨true, [[1, 0]]⟩]
        [⟨false, [[1]]⟩, ⟨false, [[0]]⟩, ⟨false, [[1]]⟩,
         ⟨false, [[1]]⟩]).isOk = true :=
  C3_no_cross_validation _ _ [2] [1] (by decide) (by decide)
    (by intro m hm; fin_cases hm <;> rfl)
    (by intro m hm; fin_cases hm <;> rfl)

/-! ### The moving-average window -/

lemma getD_map_range {α : Type _} (n : ℕ) (f : ℕ → α) (i : ℕ) (d : α)
    (h : i < n) : ((List.range n).map f).getD i d = f i := by
  rw [List.getD_eq_getElem?_getD, List.getElem?_map, List.getElem?_range h]
  rfl

lemma drop_take_eq_map_range' {α : Type _} (xs : List α) (d : α) (s n : ℕ)
    (h : s + n ≤ xs.length) :
    (xs.drop s).take n = (List.range' s n).map fun j => xs.getD j d := by
  apply List.ext_getElem
  · simp
    omega
  · intro i h1 h2
    have hi : i < n := by
      rw [List.length_take, List.length_drop] at h1
      omega
    simp only [List.getElem_take, List.getElem_drop, List.getElem_map,
      List.getElem_range']
    have hsi : s + 1 * i < xs.length := by omega
    rw [List.getD_eq_getElem?_getD, List.getElem?_eq_getElem hsi,
      Option.getD_some]
    congr 1
    omega

/-- C5: for a non-empty sequence and odd `window_size` with
`h = window_size / 2`, the `moving_average` output at index `i` is the
pixelwise mean of exactly the input frames with indices in
`[max 0 (i-h), min N (i+h+1))` (here `i - h` is truncated `ℕ` subtraction,
which is `max 0 (i-h)`); in particular, whenever `N ≥ h + 1`, output frame 0
is the mean of only the first `h + 1` frames — the window shrinks at the
boundary, with no wrap-around and no padding. -/
theorem C5_moving_average_window (masks : List Frame) (w : ℕ)
    (_hne : masks ≠ []) (hodd : w % 2 = 1) (out : List Frame)
    (hout : moving_average masks w = .ok out) :
    out.length = masks.length ∧
    (∀ i, i < masks.length →
      out.getD i [] = pixAgg meanQ
        ((List.range' (i - w / 2) (min masks.length (i + w / 2 + 1) - (i - w / 2))).map
          fun j => masks.getD j [])) ∧
    (w / 2 + 1 ≤ masks.length →
      out.getD 0 [] = pixAgg meanQ (masks.take (w / 2 + 1))) := by
  have h2 : ¬(w % 2 = 0) := by omega
  unfold moving_average at hout
  rw [if_neg h2] at hout
  injection hout with hout
  subst hout
  refine ⟨by simp, ?_, ?_⟩
  · intro i hi
    rw [getD_map_range _ _ _ _ hi]
    unfold winSlice
    rw [drop_take_eq_map_range' masks [] _ _ (by omega)]
  · intro hN
    have h0 : 0 < masks.length := by omega
    rw [getD_map_range _ _ _ _ h0]
    unfold winSlice
    have hz : 0 - w / 2 = 0 := by omega
    rw [hz, List.drop_zero, Nat.zero_add, min_eq_right hN, Nat.sub_zero]

/-- Input for the C5 witness: the spec's concrete scenario — five 2×2 binary
frames alternating all-zero / all-one. -/
def c5masks : List Frame :=
  [[[0, 0], [0, 0]], [[1, 1], [1, 1]], [[0, 0], [0, 0]],
   [[1, 1], [1, 1]], [[0, 0], [0, 0]]]

/-- The value `moving_average c5masks 3` successfully returns. -/
def c5out : List Frame :=
  (List.range c5masks.length).map fun i => pixAgg meanQ (winSlice c5masks (3 / 2) i)

/-- C5 witness: the window characterisation instantiated on the five-frame
alternating sequence with `window_size = 3`. -/
theorem C5_moving_average_window_witness :
    c5out.length = c5masks.length ∧
    (∀ i, i < c5masks.length →
      c5out.getD i [] = pixAgg meanQ
        ((List.range' (i - 3 / 2) (min c5masks.length (i + 3 / 2 + 1) - (i - 3 / 2))).map
          fun j => c5masks.getD j [])) ∧
    (3 / 2 + 1 ≤ c5masks.length →
      c5out.getD 0 [] = pixAgg meanQ (c5masks.take (3 / 2 + 1))) :=
  C5_moving_average_window c5masks 3 (by simp [c5masks]) (by decide) c5out
    (by unfold moving_average c5out; rw [if_neg (by decide)])

/-! ### The exponential-smoothing recurrence -/

lemma esGo_length (a : ℚ) (prev : Frame) (ms : List Frame) :
    (esGo a prev ms).length = ms.length := by
  induction ms generalizing prev with
  | nil => rfl
  | cons m ms ih => simp [esGo, ih]

lemma esGo_getD_zero (a : ℚ) (prev m : Frame) (ms : List Frame) :
    (esGo a prev (m :: ms)).getD 0 [] = esStep a m prev := rfl

lemma esGo_recurrence (a : ℚ) (ms : List Frame) (prev : Frame) (t : ℕ)
    (ht : t < ms.length) :
    (prev :: esGo a prev ms).getD (t + 1) []
      = esStep a (ms.getD t []) ((prev :: esGo a prev ms).getD t []) := by
  induction ms generalizing prev t with
  | nil => simp at ht
  | cons m ms ih =>
    cases t with
    | zero => rfl
    | succ t =>
      have ht' : t < ms.length := by simpa using ht
      simpa [esGo] using ih (esStep a m prev) t ht'

/-- C6: for a non-empty sequence and `alpha` strictly inside `(0,1)`,
`exponential_smoothing` succeeds and its output satisfies the causal
recurrence: same length as the input, `Output[0] = Input[0]`, and for every
`t ≥ 1`, `Output[t] = alpha·Input[t] + (1-alpha)·Output[t-1]` elementwise
(`esStep`), depending only on the current input frame and the previous
output frame. -/
theorem C6_exponential_recurrence (masks : List Frame) (a : ℚ)
    (hne : masks ≠ []) (ha0 : 0 < a) (ha1 : a < 1) (out : List Frame)
    (hout : exponential_smoothing masks a = .ok out) :
    out.length = masks.length ∧
    out.getD 0 [] = masks.getD 0 [] ∧
    ∀ t, 1 ≤ t → t < masks.length →
      out.getD t [] = esStep a (masks.getD t []) (out.getD (t - 1) []) := by
  unfold exponential_smoothing at hout
  rw [if_neg (by simp [ha0, ha1])] at hout
  match masks, hne with
  | m :: ms, _ =>
    injection hout with hout
    subst hout
    refine ⟨by simp [esGo_length], rfl, ?_⟩
    intro t ht1 ht2
    match t, ht1 with
    | t + 1, _ =>
      have ht : t < ms.length := by simpa using ht2
      simpa using esGo_recurrence a ms m t ht

/-- Input for the C6 witness. -/
def c6masks : List Frame := [[[1, 0]], [[0, 1]], [[1, 1]]]

/-- The value `exponential_smoothing c6masks (1/2)` successfully returns. -/
def c6out : List Frame := [[1, 0]] :: esGo (1/2) [[1, 0]] [[[0, 1]], [[1, 1]]]

/-- C6 witness: the recurrence instantiated on a 3-frame sequence of 1×2
masks with `alpha = 1/2`. -/
theorem C6_exponential_recurrence_witness :
    c6out.length = c6masks.length ∧
    c6out.getD 0 [] = c6masks.getD 0 [] ∧
    ∀ t, 1 ≤ t → t < c6masks.length →
      c6out.getD t [] = esStep (1/2) (c6masks.getD t []) (c6out.getD (t - 1) []) :=
  C6_exponential_recurrence c6masks (1/2) (by simp [c6masks]) (by norm_num)
    (by norm_num) c6out
    (by unfold exponential_smoothing c6masks c6out
        rw [if_neg (by norm_num)])

/-! ### Range preservation of the smoothing filters -/

lemma mem_zipWith {α β γ : Type _} {f : α → β → γ} {as : List α} {bs : List β}
    {x : γ} (h : x ∈ List.zipWith f as bs) : ∃ a ∈ as, ∃ b ∈ bs, x = f a b := by
  induction as generalizing bs with
  | nil => simp at h
  | cons a as ih =>
    cases bs with
    | nil => simp at h
    | cons b bs =>
      simp only [List.zipWith_cons_cons, List.mem_cons] at h
      rcases h with h | h
      · exact ⟨a, by simp, b, by simp, h⟩
      · obtain ⟨a1, ha1, b1, hb1, hx⟩ := ih h
        exact ⟨a1, by simp [ha1], b1, by simp [hb1], hx⟩

lemma getD_mem_of_lt {α : Type _} (l : List α) (i : ℕ) (d : α)
    (h : i < l.length) : l.getD i d ∈ l := by
  rw [List.getD_eq_getElem?_getD, List.getElem?_eq_getElem h]
  exact List.getElem_mem h

lemma meanQ_bounds (xs : List ℚ) (h : ∀ x ∈ xs, 0 ≤ x ∧ x ≤ 1) :
    0 ≤ meanQ xs ∧ meanQ xs ≤ 1 := by
  cases xs with
  | nil => simp [meanQ]
  | cons y ys =>
    have hlen : (0 : ℚ) < ((y :: ys).length : ℚ) := by
      exact_mod_cast Nat.succ_pos ys.length
    have hsum0 : 0 ≤ (y :: ys).sum := List.sum_nonneg fun x hx => (h x hx).1
    have hsum1 : (y :: ys).sum ≤ ((y :: ys).length : ℚ) := by
      have := List.sum_le_card_nsmul (y :: ys) 1 fun x hx => (h x hx).2
      simpa using this
    unfold meanQ
    exact ⟨div_nonneg hsum0 hlen.le, (div_le_one hlen).mpr hsum1⟩

lemma sorted_getD_bounds (xs : List ℚ) (h : ∀ x ∈ xs, 0 ≤ x ∧ x ≤ 1) (i : ℕ)
    (hi : i < xs.length) :
    0 ≤ (List.insertionSort (· ≤ ·) xs).getD i 0 ∧
    (List.insertionSort (· ≤ ·) xs).getD i 0 ≤ 1 := by
  have hperm := List.perm_insertionSort (· ≤ ·) xs
  have hlen : (List.insertionSort (· ≤ ·) xs).length = xs.length :=
    hperm.length_eq
  have hmem : (List.insertionSort (· ≤ ·) xs).getD i 0
      ∈ List.insertionSort (· ≤ ·) xs :=
    getD_mem_of_lt _ _ _ (by omega)
  exact h _ (hperm.mem_iff.mp hmem)

lemma medianQ_bounds (xs : List ℚ) (h : ∀ x ∈ xs, 0 ≤ x ∧ x ≤ 1) :
    0 ≤ medianQ xs ∧ medianQ xs ≤ 1 := by
  by_cases hn : xs.length = 0
  · have hnil : xs = [] := List.eq_nil_of_length_eq_zero hn
    subst hnil
    simp [medianQ]
  · simp only [medianQ]
    by_cases hp : xs.length % 2 = 1
    · rw [if_pos hp]
      exact sorted_getD_bounds xs h _ (by omega)
    · rw [if_neg hp]
      have h1 := sorted_getD_bounds xs h (xs.length / 2 - 1) (by omega)
      have h2 := sorted_getD_bounds xs h (xs.length / 2) (by omega)
      constructor
      · linarith [h1.1, h2.1]
      · linarith [h1.2, h2.2]

lemma fetch_bounds (f : Frame)
    (h : ∀ row ∈ f, ∀ x ∈ row, 0 ≤ x ∧ x ≤ 1) (r c : ℕ) :
    0 ≤ fetch f r c ∧ fetch f r c ≤ 1 := by
  unfold fetch
  by_cases hr : r < f.length
  · have hrow : f.getD r [] ∈ f := getD_mem_of_lt _ _ _ hr
    by_cases hc : c < (f.getD r []).length
    · exact h _ hrow _ (getD_mem_of_lt _ _ _ hc)
    · rw [List.getD_eq_default _ _ (show (f.getD r []).length ≤ c by omega)]
      norm_num
  · rw [List.getD_eq_default _ _ (show f.length ≤ r by omega)]
    simp

lemma pixAgg_bounds (g : List ℚ → ℚ)
    (hg : ∀ xs : List ℚ, (∀ x ∈ xs, 0 ≤ x ∧ x ≤ 1) → 0 ≤ g xs ∧ g xs ≤ 1)
    (fs : List Frame)
    (hfs : ∀ f ∈ fs, ∀ row ∈ f, ∀ x ∈ row, 0 ≤ x ∧ x ≤ 1) :
    ∀ row ∈ pixAgg g fs, ∀ x ∈ row, 0 ≤ x ∧ x ≤ 1 := by
  intro row hrow x hx
  match fs with
  | [] => simp [pixAgg] at hrow
  | f0 :: rest =>
    simp only [pixAgg, List.mem_map, List.mem_range] at hrow
    obtain ⟨r, _, hrow2⟩ := hrow
    subst hrow2
    simp only [List.mem_map, List.mem_range] at hx
    obtain ⟨c, _, hx2⟩ := hx
    subst hx2
    apply hg
    intro v hv
    simp only [List.mem_map] at hv
    obtain ⟨f, hf, hv2⟩ := hv
    subst hv2
    exact fetch_bounds f (hfs f hf) r c

lemma winSlice_subset (masks : List Frame) (h i : ℕ) :
    winSlice masks h i ⊆ masks := fun _ hf =>
  List.drop_subset _ _ (List.take_subset _ _ hf)

lemma esStep_bounds (a : ℚ) (ha0 : 0 < a) (ha1 : a < 1) (m prev : Frame)
    (hm : ∀ row ∈ m, ∀ x ∈ row, 0 ≤ x ∧ x ≤ 1)
    (hp : ∀ row ∈ prev, ∀ x ∈ row, 0 ≤ x ∧ x ≤ 1) :
    ∀ row ∈ esStep a m prev, ∀ x ∈ row, 0 ≤ x ∧ x ≤ 1 := by
  intro row hrow x hx
  unfold esStep at hrow
  obtain ⟨r1, hr1, r2, hr2, hrow2⟩ := mem_zipWith hrow
  subst hrow2
  obtain ⟨v1, hv1, v2, hv2, hx2⟩ := mem_zipWith hx
  subst hx2
  obtain ⟨h10, h11⟩ := hm r1 hr1 v1 hv1
  obtain ⟨h20, h21⟩ := hp r2 hr2 v2 hv2
  constructor
  · nlinarith
  · nlinarith

lemma esGo_bounds (a : ℚ) (ha0 : 0 < a) (ha1 : a < 1) (ms : List Frame) :
    ∀ (prev : Frame), (∀ row ∈ prev, ∀ x ∈ row, 0 ≤ x ∧ x ≤ 1) →
      (∀ f ∈ ms, ∀ row ∈ f, ∀ x ∈ row, 0 ≤ x ∧ x ≤ 1) →
      ∀ f ∈ esGo a prev ms, ∀ row ∈ f, ∀ x ∈ row, 0 ≤ x ∧ x ≤ 1 := by
  induction ms with
  | nil =>
    intro prev _ _ f hf
    simp [esGo] at hf
  | cons m ms ih =>
    intro prev hprev hms f hf
    have hm := hms m (by simp)
    have hstep := esStep_bounds a ha0 ha1 m prev hm hprev
    simp only [esGo, List.mem_cons] at hf
    rcases hf with rfl | hf
    · exact hstep
    · exact ih (esStep a m prev) hstep (fun g hg => hms g (by simp [hg])) f hf

/-! ### Envelope lemmas: fold-based minimum and maximum of a score list -/

lemma foldl_min_le_init (acc : ℚ) (xs : List ℚ) : xs.foldl min acc ≤ acc := by
  induction xs generalizing acc with
  | nil => simp
  | cons y ys ih =>
    simp only [List.foldl_cons]
    exact le_trans (ih (min acc y)) (min_le_left _ _)

lemma foldl_min_le_mem (acc : ℚ) (xs : List ℚ) (x : ℚ) (h : x ∈ xs) :
    xs.foldl min acc ≤ x := by
  induction xs generalizing acc with
  | nil => simp at h
  | cons y ys ih =>
    simp only [List.foldl_cons]
    rcases List.mem_cons.mp h with rfl | h2
    · exact le_trans (foldl_min_le_init _ _) (min_le_right _ _)
    · exact ih _ h2

lemma listMin_le_of_mem (xs : List ℚ) (x : ℚ) (h : x ∈ xs) : listMin xs ≤ x := by
  match xs, h with
  | y :: ys, h =>
    simp only [listMin]
    rcases List.mem_cons.mp h with rfl | h2
    · exact foldl_min_le_init _ _
    · exact foldl_min_le_mem _ _ _ h2

lemma init_le_foldl_max (acc : ℚ) (xs : List ℚ) : acc ≤ xs.foldl max acc := by
  induction xs generalizing acc with
  | nil => simp
  | cons y ys ih =>
    simp only [List.foldl_cons]
    exact le_trans (le_max_left _ _) (ih (max acc y))

lemma mem_le_foldl_max (acc : ℚ) (xs : List ℚ) (x : ℚ) (h : x ∈ xs) :
    x ≤ xs.foldl max acc := by
  induction xs generalizing acc with
  | nil => simp at h
  | cons y ys ih =>
    simp only [List.foldl_cons]
    rcases List.mem_cons.mp h with rfl | h2
    · exact le_trans (le_max_right _ _) (init_le_foldl_max _ _)
    · exact ih _ h2

lemma le_listMax_of_mem (xs : List ℚ) (x : ℚ) (h : x ∈ xs) : x ≤ listMax xs := by
  match xs, h with
  | y :: ys, h =>
    simp only [listMax]
    rcases List.mem_cons.mp h with rfl | h2
    · exact init_le_foldl_max _ _
    · exact mem_le_foldl_max _ _ _ h2

lemma foldl_min_mem (acc : ℚ) (xs : List ℚ) : xs.foldl min acc ∈ acc :: xs := by
  induction xs generalizing acc with
  | nil => simp
  | cons y ys ih =>
    simp only [List.foldl_cons]
    rcases List.mem_cons.mp (ih (min acc y)) with h | h
    · rw [h]
      rcases min_choice acc y with h2 | h2 <;> rw [h2] <;> simp
    · exact List.mem_cons_of_mem _ (List.mem_cons_of_mem _ h)

lemma listMin_mem (xs : List ℚ) (h : xs ≠ []) : listMin xs ∈ xs := by
  match xs, h with
  | y :: ys, _ =>
    simp only [listMin]
    exact foldl_min_mem y ys

lemma foldl_max_mem (acc : ℚ) (xs : List ℚ) : xs.foldl max acc ∈ acc :: xs := by
  induction xs generalizing acc with
  | nil => simp
  | cons y ys ih =>
    simp only [List.foldl_cons]
    rcases List.mem_cons.mp (ih (max acc y)) with h | h
    · rw [h]
      rcases max_choice acc y with h2 | h2 <;> rw [h2] <;> simp
    · exact List.mem_cons_of_mem _ (List.mem_cons_of_mem _ h)

lemma listMax_mem (xs : List ℚ) (h : xs ≠ []) : listMax xs ∈ xs := by
  match xs, h with
  | y :: ys, _ =>
    simp only [listMax]
    exact foldl_max_mem y ys

lemma sum_ge_card_mul (xs : List ℚ) (m : ℚ) (h : ∀ x ∈ xs, m ≤ x) :
    (xs.length : ℚ) * m ≤ xs.sum := by
  induction xs with
  | nil => simp
  | cons y ys ih =>
    have h1 := ih fun x hx => h x (by simp [hx])
    have h2 := h y (by simp)
    simp only [List.length_cons, List.sum_cons]
    push_cast
    ring_nf
    ring_nf at h1
    linarith

lemma sum_le_card_mul (xs : List ℚ) (M : ℚ) (h : ∀ x ∈ xs, x ≤ M) :
    xs.sum ≤ (xs.length : ℚ) * M := by
  induction xs with
  | nil => simp
  | cons y ys ih =>
    have h1 := ih fun x hx => h x (by simp [hx])
    have h2 := h y (by simp)
    simp only [List.length_cons, List.sum_cons]
    push_cast
    ring_nf
    ring_nf at h1
    linarith

/-- The mean of a nonempty list lies between its minimum and maximum. -/
lemma meanQ_between (xs : List ℚ) (h : xs ≠ []) :
    listMin xs ≤ meanQ xs ∧ meanQ xs ≤ listMax xs := by
  have hlen : (0 : ℚ) < (xs.length : ℚ) := by
    exact_mod_cast List.length_pos.mpr h
  have hmin := sum_ge_card_mul xs (listMin xs) fun x hx => listMin_le_of_mem _ _ hx
  have hmax := sum_le_card_mul xs (listMax xs) fun x hx => le_listMax_of_mem _ _ hx
  unfold meanQ
  constructor
  · rw [le_div_iff₀ hlen, mul_comm]
    exact hmin
  · rw [div_le_iff₀ hlen, mul_comm]
    exact hmax

lemma sorted_getD_mem (xs : List ℚ) (i : ℕ) (hi : i < xs.length) :
    (List.insertionSort (· ≤ ·) xs).getD i 0 ∈ xs := by
  have hperm := List.perm_insertionSort (· ≤ ·) xs
  exact hperm.mem_iff.mp
    (getD_mem_of_lt _ _ _ (by rw [hperm.length_eq]; omega))

/-- The median of a nonempty list lies between its minimum and maximum. -/
lemma medianQ_between (xs : List ℚ) (h : xs ≠ []) :
    listMin xs ≤ medianQ xs ∧ medianQ xs ≤ listMax xs := by
  have hn : xs.length ≠ 0 := fun h0 => h (List.eq_nil_of_length_eq_zero h0)
  simp only [medianQ]
  by_cases hp : xs.length % 2 = 1
  · rw [if_pos hp]
    have hm := sorted_getD_mem xs (xs.length / 2) (by omega)
    exact ⟨listMin_le_of_mem _ _ hm, le_listMax_of_mem _ _ hm⟩
  · rw [if_neg hp]
    have h1 := sorted_getD_mem xs (xs.length / 2 - 1) (by omega)
    have h2 := sorted_getD_mem xs (xs.length / 2) (by omega)
    have a1 := listMin_le_of_mem _ _ h1
    have a2 := listMin_le_of_mem _ _ h2
    have b1 := le_listMax_of_mem _ _ h1
    have b2 := le_listMax_of_mem _ _ h2
    constructor
    · linarith
    · linarith

/-! ### Shape plumbing for the envelope theorem -/

lemma take_subset_take {α : Type _} (l : List α) (m n : ℕ) (h : m ≤ n) :
    l.take m ⊆ l.take n := by
  intro x hx
  have heq : (l.take n).take m = l.take m := by
    rw [List.take_take, min_eq_left h]
  rw [← heq] at hx
  exact List.take_subset _ _ hx

lemma getD_mem_take {α : Type _} (l : List α) (d : α) (j n : ℕ) (hj : j < n)
    (hjl : j < l.length) : l.getD j d ∈ l.take n := by
  have hlen : j < (l.take n).length := by
    rw [List.length_take]
    omega
  have heq : (l.take n).getD j d = l.getD j d := by
    rw [List.getD_eq_getElem?_getD, List.getD_eq_getElem?_getD,
      List.getElem?_take_of_lt hj]
  rw [← heq]
  exact getD_mem_of_lt _ _ _ hlen

lemma winSlice_ne_nil (masks : List Frame) (h i : ℕ) (hi : i < masks.length) :
    winSlice masks h i ≠ [] := by
  unfold winSlice
  apply List.ne_nil_of_length_pos
  rw [List.length_take, List.length_drop]
  omega

lemma rowLens_facts (f : Frame) (H W : ℕ)
    (h : f.map List.length = List.replicate H W) :
    f.length = H ∧ ∀ row ∈ f, row.length = W := by
  constructor
  · have h2 := congrArg List.length h
    simpa using h2
  · intro row hrow
    have hmem : row.length ∈ f.map List.length := List.mem_map_of_mem _ hrow
    rw [h] at hmem
    exact List.eq_of_mem_replicate hmem

lemma fetch_pixAgg (g : List ℚ → ℚ) (f0 : Frame) (rest : List Frame) (r c : ℕ)
    (hr : r < f0.length) (hc : c < (f0.getD r []).length) :
    fetch (pixAgg g (f0 :: rest)) r c
      = g ((f0 :: rest).map fun f => fetch f r c) := by
  unfold fetch pixAgg
  rw [getD_map_range _ _ _ _ hr, getD_map_range _ _ _ _ hc]
  rfl

lemma getD_zipWith {α β γ : Type _} (f : α → β → γ) (as : List α) (bs : List β)
    (i : ℕ) (d1 : α) (d2 : β) (d3 : γ) (h1 : i < as.length)
    (h2 : i < bs.length) :
    (List.zipWith f as bs).getD i d3 = f (as.getD i d1) (bs.getD i d2) := by
  have h3 : i < (List.zipWith f as bs).length := by
    rw [List.length_zipWith]
    omega
  rw [List.getD_eq_getElem?_getD, List.getElem?_eq_getElem h3, Option.getD_some,
    List.getElem_zipWith,
    List.getD_eq_getElem?_getD, List.getElem?_eq_getElem h1, Option.getD_some,
    List.getD_eq_getElem?_getD, List.getElem?_eq_getElem h2, Option.getD_some]

/-- The pixel of one smoothing update, at in-range indices. -/
lemma fetch_esStep (a : ℚ) (m prev : Frame) (r c : ℕ)
    (hr1 : r < m.length) (hr2 : r < prev.length)
    (hc1 : c < (m.getD r []).length) (hc2 : c < (prev.getD r []).length) :
    fetch (esStep a m prev) r c = a * fetch m r c + (1 - a) * fetch prev r c := by
  unfold fetch esStep
  rw [getD_zipWith _ m prev r [] [] [] hr1 hr2,
    getD_zipWith _ (m.getD r []) (prev.getD r []) c 0 0 0 hc1 hc2]

lemma esStep_rowLens (a : ℚ) (m prev : Frame) (H W : ℕ)
    (hm : m.map List.length = List.replicate H W)
    (hp : prev.map List.length = List.replicate H W) :
    (esStep a m prev).map List.length = List.replicate H W := by
  obtain ⟨hmH, hmW⟩ := rowLens_facts m H W hm
  obtain ⟨hpH, hpW⟩ := rowLens_facts prev H W hp
  unfold esStep
  apply List.ext_getElem
  · simp [List.length_zipWith, hmH, hpH]
  · intro n h1 h2
    have hn1 : n < m.length := by
      simp only [List.length_map, List.length_zipWith] at h1
      omega
    have hn2 : n < prev.length := by
      simp only [List.length_map, List.length_zipWith] at h1
      omega
    simp only [List.getElem_map, List.getElem_zipWith, List.getElem_replicate]
    rw [List.length_zipWith]
    have e1 : m[n].length = W := hmW _ (List.getElem_mem hn1)
    have e2 : prev[n].length = W := hpW _ (List.getElem_mem hn2)
    omega

lemma esGo_rowLens (a : ℚ) (H W : ℕ) (ms : List Frame) :
    ∀ prev : Frame, prev.map List.length = List.replicate H W →
      (∀ f ∈ ms, f.map List.length = List.replicate H W) →
      ∀ f ∈ esGo a prev ms, f.map List.length = List.replicate H W := by
  induction ms with
  | nil =>
    intro prev _ _ f hf
    simp [esGo] at hf
  | cons m ms ih =>
    intro prev hprev hms f hf
    have hstep := esStep_rowLens a m prev H W (hms m (by simp)) hprev
    simp only [esGo, List.mem_cons] at hf
    rcases hf with rfl | hf
    · exact hstep
    · exact ih (esStep a m prev) hstep (fun g hg => hms g (by simp [hg])) f hf

/-- C10: on a non-empty sequence of common-shape `H×W` frames whose pixels all
lie in `[0,1]`, every output pixel of `moving_average`, `median_filter` and
`exponential_smoothing` (with `alpha ∈ (0,1)`) also lies in `[0,1]`; more
generally, each output pixel lies between the minimum and maximum of the
contributing input pixels: for the two windowed filters these are the pixels
at the same position in the clipped window `winSlice`, and for the causal
exponential filter they are the pixels at the same position in the input
frames `0..t`. -/
theorem C10_range_preserved (masks : List Frame) (H W w : ℕ) (a : ℚ)
    (hne : masks ≠ [])
    (hdims : ∀ f ∈ masks, f.map List.length = List.replicate H W)
    (hbnd : Bounded01 masks)
    (hodd : w % 2 = 1) (ha0 : 0 < a) (ha1 : a < 1) :
    (∀ out, moving_average masks w = .ok out → Bounded01 out ∧
      ∀ i, i < masks.length → ∀ r, r < H → ∀ c, c < W →
        listMin ((winSlice masks (w / 2) i).map fun f => fetch f r c)
            ≤ fetch (out.getD i []) r c ∧
        fetch (out.getD i []) r c
            ≤ listMax ((winSlice masks (w / 2) i).map fun f => fetch f r c)) ∧
    (∀ out, median_filter masks w = .ok out → Bounded01 out ∧
      ∀ i, i < masks.length → ∀ r, r < H → ∀ c, c < W →
        listMin ((winSlice masks (w / 2) i).map fun f => fetch f r c)
            ≤ fetch (out.getD i []) r c ∧
        fetch (out.getD i []) r c
            ≤ listMax ((winSlice masks (w / 2) i).map fun f => fetch f r c)) ∧
    (∀ out, exponential_smoothing masks a = .ok out → Bounded01 out ∧
      ∀ t, t < masks.length → ∀ r, r < H → ∀ c, c < W →
        listMin ((masks.take (t + 1)).map fun f => fetch f r c)
            ≤ fetch (out.getD t []) r c ∧
        fetch (out.getD t []) r c
            ≤ listMax ((masks.take (t + 1)).map fun f => fetch f r c)) := by
  have h2 : ¬(w % 2 = 0) := by omega
  refine ⟨?_, ?_, ?_⟩
  · intro out hout
    unfold moving_average at hout
    rw [if_neg h2] at hout
    injection hout with hout
    subst hout
    constructor
    · intro f hf
      simp only [List.mem_map, List.mem_range] at hf
      obtain ⟨i, _, rfl⟩ := hf
      exact pixAgg_bounds meanQ meanQ_bounds _
        fun g hg => hbnd g (winSlice_subset masks (w / 2) i hg)
    · intro i hi r hr c hc
      rw [getD_map_range _ _ _ _ hi]
      have hwne := winSlice_ne_nil masks (w / 2) i hi
      obtain ⟨f0, rest, hws⟩ : ∃ f0 rest, winSlice masks (w / 2) i = f0 :: rest := by
        cases hws0 : winSlice masks (w / 2) i with
        | nil => exact absurd hws0 hwne
        | cons f0 rest => exact ⟨f0, rest, rfl⟩
      have hf0 : f0 ∈ masks :=
        winSlice_subset masks (w / 2) i (by rw [hws]; exact List.mem_cons_self _ _)
      obtain ⟨hH, hW⟩ := rowLens_facts f0 H W (hdims f0 hf0)
      have hrf : r < f0.length := by omega
      have hcf : c < (f0.getD r []).length := by
        have := hW (f0.getD r []) (getD_mem_of_lt f0 r [] hrf)
        omega
      rw [hws, fetch_pixAgg meanQ f0 rest r c hrf hcf]
      exact meanQ_between _ (by simp)
  · intro out hout
    unfold median_filter at hout
    rw [if_neg h2] at hout
    injection hout with hout
    subst hout
    constructor
    · intro f hf
      simp only [List.mem_map, List.mem_range] at hf
      obtain ⟨i, _, rfl⟩ := hf
      exact pixAgg_bounds medianQ medianQ_bounds _
        fun g hg => hbnd g (winSlice_subset masks (w / 2) i hg)
    · intro i hi r hr c hc
      rw [getD_map_range _ _ _ _ hi]
      have hwne := winSlice_ne_nil masks (w / 2) i hi
      obtain ⟨f0, rest, hws⟩ : ∃ f0 rest, winSlice masks (w / 2) i = f0 :: rest := by
        cases hws0 : winSlice masks (w / 2) i with
        | nil => exact absurd hws0 hwne
        | cons f0 rest => exact ⟨f0, rest, rfl⟩
      have hf0 : f0 ∈ masks :=
        winSlice_subset masks (w / 2) i (by rw [hws]; exact List.mem_cons_self _ _)
      obtain ⟨hH, hW⟩ := rowLens_facts f0 H W (hdims f0 hf0)
      have hrf : r < f0.length := by omega
      have hcf : c < (f0.getD r []).length := by
        have := hW (f0.getD r []) (getD_mem_of_lt f0 r [] hrf)
        omega
      rw [hws, fetch_pixAgg medianQ f0 rest r c hrf hcf]
      exact medianQ_between _ (by simp)
  · intro out hout
    unfold exponential_smoothing at hout
    rw [if_neg (not_not_intro ⟨ha0, ha1⟩)] at hout
    match masks, hne, hdims, hbnd, hout with
    | m :: ms, _, hdims, hbnd, hout =>
      injection hout with hout
      subst hout
      constructor
      · intro f hf
        rcases List.mem_cons.mp hf with rfl | hf
        · exact hbnd f (by simp)
        · exact esGo_bounds a ha0 ha1 ms m (hbnd m (by simp))
            (fun g hg => hbnd g (by simp [hg])) f hf
      · have hdim_out : ∀ f ∈ (m :: esGo a m ms),
            f.map List.length = List.replicate H W := by
          intro f hf
          rcases List.mem_cons.mp hf with rfl | hf
          · exact hdims f (by simp)
          · exact esGo_rowLens a H W ms m (hdims m (by simp))
              (fun g hg => hdims g (by simp [hg])) f hf
        have hlen_out : (m :: esGo a m ms).length = ms.length + 1 := by
          simp [esGo_length]
        intro t
        induction t with
        | zero =>
          intro ht r hr c hc
          exact ⟨le_refl _, le_refl _⟩
        | succ t ih =>
          intro ht r hr c hc
          have htm : t < ms.length := by
            simp only [List.length_cons] at ht
            omega
          have htN : t < (m :: ms).length := by
            simp only [List.length_cons]
            omega
          obtain ⟨ih1, ih2⟩ := ih htN r hr c hc
          have hrec := esGo_recurrence a ms m t htm
          have hmt_mem : ms.getD t [] ∈ (m :: ms) :=
            List.mem_cons_of_mem _ (getD_mem_of_lt _ _ _ htm)
          obtain ⟨hmtH, hmtW⟩ := rowLens_facts _ H W (hdims _ hmt_mem)
          have hprev_mem : (m :: esGo a m ms).getD t []
              ∈ (m :: esGo a m ms) :=
            getD_mem_of_lt _ _ _ (by rw [hlen_out]; omega)
          obtain ⟨hpH, hpW⟩ := rowLens_facts _ H W (hdim_out _ hprev_mem)
          have hrm : r < (ms.getD t []).length := by omega
          have hrp : r < ((m :: esGo a m ms).getD t []).length := by omega
          have hcm : c < ((ms.getD t []).getD r []).length := by
            have := hmtW ((ms.getD t []).getD r [])
              (getD_mem_of_lt (ms.getD t []) r [] hrm)
            omega
          have hcp : c < (((m :: esGo a m ms).getD t []).getD r []).length := by
            have := hpW (((m :: esGo a m ms).getD t []).getD r [])
              (getD_mem_of_lt ((m :: esGo a m ms).getD t []) r [] hrp)
            omega
          have hfetch : fetch ((m :: esGo a m ms).getD (t + 1) []) r c
              = a * fetch (ms.getD t []) r c
                + (1 - a) * fetch ((m :: esGo a m ms).getD t []) r c := by
            rw [hrec]
            exact fetch_esStep a _ _ r c hrm hrp hcm hcp
          rw [hfetch]
          have hP1ne : (((m :: ms).take (t + 1)).map fun f => fetch f r c) ≠ [] := by
            simp [List.take_eq_nil_iff]
          have hsub : (((m :: ms).take (t + 1)).map fun f => fetch f r c)
              ⊆ (((m :: ms).take (t + 2)).map fun f => fetch f r c) :=
            List.map_subset _ (take_subset_take _ _ _ (by omega))
          have hpmem : fetch (ms.getD t []) r c
              ∈ (((m :: ms).take (t + 2)).map fun f => fetch f r c) := by
            apply List.mem_map_of_mem
            have heq : ms.getD t [] = (m :: ms).getD (t + 1) [] := rfl
            rw [heq]
            exact getD_mem_take _ _ _ _ (by omega) ht
          have hminp := listMin_le_of_mem _ _ hpmem
          have hmaxp := le_listMax_of_mem _ _ hpmem
          have hmin12 : listMin (((m :: ms).take (t + 2)).map fun f => fetch f r c)
              ≤ listMin (((m :: ms).take (t + 1)).map fun f => fetch f r c) :=
            listMin_le_of_mem _ _ (hsub (listMin_mem _ hP1ne))
          have hmax12 : listMax (((m :: ms).take (t + 1)).map fun f => fetch f r c)
              ≤ listMax (((m :: ms).take (t + 2)).map fun f => fetch f r c) :=
            le_listMax_of_mem _ _ (hsub (listMax_mem _ hP1ne))
          constructor
          · have k1 : 0 ≤ a * (fetch (ms.getD t []) r c
                - listMin (((m :: ms).take (t + 2)).map fun f => fetch f r c)) :=
              mul_nonneg ha0.le (by linarith)
            have k2 : 0 ≤ (1 - a) * (fetch ((m :: esGo a m ms).getD t []) r c
                - listMin (((m :: ms).take (t + 2)).map fun f => fetch f r c)) :=
              mul_nonneg (by linarith) (by linarith)
            nlinarith [k1, k2]
          · have k3 : 0 ≤ a * (listMax (((m :: ms).take (t + 2)).map fun f => fetch f r c)
                - fetch (ms.getD t []) r c) :=
              mul_nonneg ha0.le (by linarith)
            have k4 : 0 ≤ (1 - a) * (listMax (((m :: ms).take (t + 2)).map fun f => fetch f r c)
                - fetch ((m :: esGo a m ms).getD t []) r c) :=
              mul_nonneg (by linarith) (by linarith)
            nlinarith [k3, k4]

/-- C10 witness: a single 1×2 frame with pixel values 0 and 1 (`H = 1`,
`W = 2`), `window_size = 1`, `alpha = 1/2`. -/
theorem C10_range_preserved_witness :
    (∀ out, moving_average [[[0, 1]]] 1 = .ok out → Bounded01 out ∧
      ∀ i, i < ([[[0, 1]]] : List Frame).length → ∀ r, r < 1 → ∀ c, c < 2 →
        listMin ((winSlice [[[0, 1]]] (1 / 2) i).map fun f => fetch f r c)
            ≤ fetch (out.getD i []) r c ∧
        fetch (out.getD i []) r c
            ≤ listMax ((winSlice [[[0, 1]]] (1 / 2) i).map fun f => fetch f r c)) ∧
    (∀ out, median_filter [[[0, 1]]] 1 = .ok out → Bounded01 out ∧
      ∀ i, i < ([[[0, 1]]] : List Frame).length → ∀ r, r < 1 → ∀ c, c < 2 →
        listMin ((winSlice [[[0, 1]]] (1 / 2) i).map fun f => fetch f r c)
            ≤ fetch (out.getD i []) r c ∧
        fetch (out.getD i []) r c
            ≤ listMax ((winSlice [[[0, 1]]] (1 / 2) i).map fun f => fetch f r c)) ∧
    (∀ out, exponential_smoothing [[[0, 1]]] (1/2) = .ok out → Bounded01 out ∧
      ∀ t, t < ([[[0, 1]]] : List Frame).length → ∀ r, r < 1 → ∀ c, c < 2 →
        listMin ((([[[0, 1]]] : List Frame).take (t + 1)).map fun f => fetch f r c)
            ≤ fetch (out.getD t []) r c ∧
        fetch (out.getD t []) r c
            ≤ listMax ((([[[0, 1]]] : List Frame).take (t + 1)).map fun f => fetch f r c)) :=
  C10_range_preserved [[[0, 1]]] 1 2 1 (1/2) (by simp)
    (by
      intro f hf
      rw [List.mem_singleton] at hf
      subst hf
      rfl)
    (by
      intro f hf
      rw [List.mem_singleton] at hf
      subst hf
      intro row hrow
      rw [List.mem_singleton] at hrow
      subst hrow
      intro x hx
      simp only [List.mem_cons, List.mem_singleton, List.not_mem_nil,
        or_false] at hx
      rcases hx with rfl | rfl <;> norm_num)
    (by decide) (by norm_num) (by norm_num)
